import Mathlib

/-!
Verification of the procedural-design core pipeline against its
natural-language specification.

The development shallowly embeds the Python sources:
- src/geometry/boundaries.py      (boundary mask builder)
- src/algorithms/tunnelling.py    (agent-based field carver)
- src/geometry/mesh_operations.py (isosurface extraction, smoothing,
                                   validation, decimation)

Scalar fields and grids are modelled as total functions on natural-number
lattice indices with rational values (only indices below the resolution
matter); numpy float arithmetic is idealised as exact rational arithmetic.
The numpy random generator is modelled as an explicit stream of draws, so
properties quantified over all streams cover every realisable run.
-/

namespace ProceduralDesign

/-- Componentwise 3D vectors over the rationals (numpy float triples). -/
abbrev Vec3 := ℚ × ℚ × ℚ

def vadd (a b : Vec3) : Vec3 := (a.1 + b.1, a.2.1 + b.2.1, a.2.2 + b.2.2)

def vsub (a b : Vec3) : Vec3 := (a.1 - b.1, a.2.1 - b.2.1, a.2.2 - b.2.2)

def vsmul (c : ℚ) (a : Vec3) : Vec3 := (c * a.1, c * a.2.1, c * a.2.2)

/-- Cross product of two 3D vectors. -/
def crossProd (a b : Vec3) : Vec3 :=
  (a.2.1 * b.2.2 - a.2.2 * b.2.1,
   a.2.2 * b.1 - a.1 * b.2.2,
   a.1 * b.2.1 - a.2.1 * b.1)

/-- Squared Euclidean norm of a 3D vector. -/
def normSq (a : Vec3) : ℚ := a.1 ^ 2 + a.2.1 ^ 2 + a.2.2 ^ 2

/-- A dense scalar field sampled on the lattice; indices at or above the
resolution are irrelevant padding. -/
abbrev Field3 := ℕ → ℕ → ℕ → ℚ

/-- A boolean validity mask over the same lattice. -/
abbrev Mask3 := ℕ → ℕ → ℕ → Bool

/-- A rational-valued grid over the same lattice (the Z_norm grid). -/
abbrev Grid3 := ℕ → ℕ → ℕ → ℚ

/-- Entry i of numpy linspace(-1, 1, n): evenly spaced samples from -1 to 1;
for a single sample numpy returns the start point -1. -/
def linAt (n i : ℕ) : ℚ :=
  if n ≤ 1 then -1 else -1 + 2 * (i : ℚ) / ((n : ℚ) - 1)

/-- Embeds make_vase_mask (boundaries.py:11-45): the cell at (i, j, k) is
inside the vase iff its planar radius R_xy satisfies
R_xy ≤ radius_frac * (1 - taper * Z_norm); the real comparison
sqrt(x² + y²) ≤ rz is translated exactly as 0 ≤ rz ∧ x² + y² ≤ rz².
Returns the pair (mask, Z_norm) exactly as the source does. -/
def make_vase_mask (n : ℕ) (radius_frac taper : ℚ) : Mask3 × Grid3 :=
  (fun i j k =>
      let x := linAt n i
      let y := linAt n j
      let znorm := (linAt n k + 1) / 2
      let radius_z := radius_frac * (1 - taper * znorm)
      decide (0 ≤ radius_z ∧ x ^ 2 + y ^ 2 ≤ radius_z ^ 2),
   fun _ _ k => (linAt n k + 1) / 2)

/-- Embeds make_cylinder_mask (boundaries.py:48-63): the source returns the
full (mask, Z_norm) tuple of make_vase_mask with taper 0. -/
def make_cylinder_mask (n : ℕ) (radius_frac : ℚ) : Mask3 × Grid3 :=
  make_vase_mask n radius_frac 0

/-- Numpy coercion of a boolean to a float used when a boolean array is
compared elementwise against a float array. -/
def boolToRat (b : Bool) : ℚ := if b then 1 else 0

/-- Holds iff a property holds at every cell of the n×n×n lattice. -/
def gridForall (n : ℕ) (p : ℕ → ℕ → ℕ → Prop) : Prop :=
  ∀ i j k, i < n → j < n → k < n → p i j k

/-- Modelled from the spec: the claimed identity
make_cylinder_mask(n, r) == make_vase_mask(n, r, taper=0)[0] compares the
returned (mask, Z_norm) tuple against the bare mask array; under numpy
broadcasting this holds iff the cylinder mask equals the vase mask and the
Z_norm grid equals the float coercion of the vase mask, elementwise. -/
def cylinder_equals_vase_mask_only (n : ℕ) (r : ℚ) : Prop :=
  gridForall n (fun i j k =>
      (make_cylinder_mask n r).1 i j k = (make_vase_mask n r 0).1 i j k) ∧
  gridForall n (fun i j k =>
      (make_cylinder_mask n r).2 i j k
        = boolToRat ((make_vase_mask n r 0).1 i j k))

/-! ## Field carver (tunnelling.py) -/

/-- An agent position as integer lattice coordinates (the source keeps
positions as numpy integers throughout: starts are mask cells, steps are
integer offsets, and clipping preserves integrality). -/
abbrev Pos := ℕ × ℕ × ℕ

/-- The numpy Generator modelled as a stream of raw draws together with a
cursor; each scalar drawn advances the cursor by one. Quantifying over all
streams covers every sequence of in-range draws the real generator can
produce. -/
structure Rng where
  σ : ℕ → ℕ
  k : ℕ

/-- One raw draw from the stream. -/
def Rng.next (r : Rng) : ℕ × Rng := (r.σ r.k, ⟨r.σ, r.k + 1⟩)

/-- Models Generator.integers(lo, hi): a draw mapped into [lo, hi). -/
def Rng.integers (r : Rng) (lo hi : ℤ) : ℤ × Rng :=
  let d := r.next
  (lo + (d.1 : ℤ) % (hi - lo), d.2)

/-- Python int() truncation toward zero of a rational. -/
def truncQ (q : ℚ) : ℤ := if 0 ≤ q then ⌊q⌋ else ⌈q⌉

/-- Models np.clip(v, 0, n-1) followed by the integer cast. -/
def clipPos (n : ℕ) (v : ℤ) : ℕ := (min (max v 0) ((n : ℤ) - 1)).toNat

/-- Whether index i lies in the carving slice
[max(0, int(c - radius)), min(n, int(c + radius + 1))) along one axis
(tunnelling.py:64-66). -/
def inSlice (n : ℕ) (c : ℕ) (radius : ℚ) (i : ℕ) : Bool :=
  decide (max 0 (truncQ ((c : ℚ) - radius)) ≤ (i : ℤ)) &&
  decide ((i : ℤ) < min (n : ℤ) (truncQ ((c : ℚ) + radius + 1)))

/-- One carving operation (tunnelling.py:63-79): every lattice cell of the
bounding box whose Euclidean distance to the agent position is at most
radius is multiplied in place by the reduction factor; the real comparison
R ≤ radius is translated exactly as 0 ≤ radius ∧ R² ≤ radius². -/
def carveStep (n : ℕ) (radius reduction_factor : ℚ) (p : Pos) (f : Field3) :
    Field3 :=
  fun i j k =>
    if inSlice n p.1 radius i && inSlice n p.2.1 radius j &&
        inSlice n p.2.2 radius k &&
        decide (0 ≤ radius) &&
        decide (((i : ℚ) - p.1) ^ 2 + ((j : ℚ) - p.2.1) ^ 2 +
          ((k : ℚ) - p.2.2) ^ 2 ≤ radius ^ 2)
    then reduction_factor * f i j k
    else f i j k

/-- The True cells of the mask in row-major order, as produced by
np.array(np.where(mask)).T (tunnelling.py:51). -/
def maskCoords (n : ℕ) (mask : Mask3) : List Pos :=
  (List.range n).flatMap fun i =>
    (List.range n).flatMap fun j =>
      (List.range n).filterMap fun k =>
        if mask i j k then some (i, j, k) else none

/-- Models coords[rng.integers(0, len(coords))]: draw an index uniformly in
[0, len(coords)) and take that True cell. -/
def drawCoord (coords : List Pos) (r : Rng) : Pos × Rng :=
  let d := r.integers 0 coords.length
  (coords.getD d.1.toNat (0, 0, 0), d.2)

/-- The inner per-agent loop (tunnelling.py:62-89). Each iteration carves
around the current position, advances each axis by an independent draw from
{-1, 0, 1} clipped to the grid, and on leaving the mask restarts at a fresh
random True cell; the step budget is consumed regardless. Besides the
carved field and the generator, it returns the ghost trace of positions at
the start of each iteration. -/
def walkSteps (n : ℕ) (mask : Mask3) (coords : List Pos)
    (radius reduction_factor : ℚ) :
    ℕ → Pos → Rng → Field3 → Field3 × Rng × List Pos
  | 0, _, rng, f => (f, rng, [])
  | steps + 1, p, rng, f =>
      let f' := carveStep n radius reduction_factor p f
      let s1 := rng.integers (-1) 2
      let s2 := s1.2.integers (-1) 2
      let s3 := s2.2.integers (-1) 2
      let p' : Pos := (clipPos n ((p.1 : ℤ) + s1.1),
                       clipPos n ((p.2.1 : ℤ) + s2.1),
                       clipPos n ((p.2.2 : ℤ) + s3.1))
      if mask p'.1 p'.2.1 p'.2.2 then
        let w := walkSteps n mask coords radius reduction_factor steps p' s3.2 f'
        (w.1, w.2.1, p :: w.2.2)
      else
        let q := drawCoord coords s3.2
        let w := walkSteps n mask coords radius reduction_factor steps q.1 q.2 f'
        (w.1, w.2.1, p :: w.2.2)

/-- The outer loop over agents (tunnelling.py:58-89): each agent starts at a
random True cell and walks for the full step budget. -/
def agentsLoop (n : ℕ) (mask : Mask3) (coords : List Pos)
    (radius reduction_factor : ℚ) (steps : ℕ) :
    ℕ → Rng → Field3 → Field3 × Rng × List Pos
  | 0, rng, f => (f, rng, [])
  | a + 1, rng, f =>
      let q := drawCoord coords rng
      let w1 := walkSteps n mask coords radius reduction_factor steps q.1 q.2 f
      let w2 := agentsLoop n mask coords radius reduction_factor steps a w1.2.1 w1.1
      (w2.1, w2.2.1, w1.2.2 ++ w2.2.2)

/-- Embeds carve_tunnels_random_walk (tunnelling.py:11-91) instrumented with
the ghost position trace: a nonpositive agent count or step budget, or a
mask with no True cells, returns an unmodified copy of the field; otherwise
the working copy is carved by every agent in order. -/
def carveCore (n : ℕ) (field : Field3) (mask : Mask3)
    (n_agents agent_steps : ℤ) (radius reduction_factor : ℚ) (rng : Rng) :
    Field3 × Rng × List Pos :=
  if n_agents ≤ 0 ∨ agent_steps ≤ 0 then (field, rng, [])
  else if (maskCoords n mask).isEmpty then (field, rng, [])
  else
    agentsLoop n mask (maskCoords n mask) radius reduction_factor
      agent_steps.toNat n_agents.toNat rng field

/-- The carved field returned by carve_tunnels_random_walk. -/
def carve_tunnels_random_walk (n : ℕ) (field : Field3) (mask : Mask3)
    (n_agents agent_steps : ℤ) (radius reduction_factor : ℚ) (rng : Rng) :
    Field3 :=
  (carveCore n field mask n_agents agent_steps radius reduction_factor rng).1

/-- The ghost trace of agent positions at the start of every carving
iteration of every agent, in execution order. -/
def carveWalkTrace (n : ℕ) (field : Field3) (mask : Mask3)
    (n_agents agent_steps : ℤ) (radius reduction_factor : ℚ) (rng : Rng) :
    List Pos :=
  (carveCore n field mask n_agents agent_steps radius reduction_factor rng).2.2

/-- Modelled from the spec: np.random.default_rng(seed) deterministically
derives the generator state from the explicit seed (None, the only
nondeterministic case, is excluded here). The concrete stream stands in for
PCG64; no claim in this development depends on its particular values, only
on its being a function of the seed. -/
def seedStream (seed : ℕ) : Rng :=
  ⟨fun k => ((seed + 1) * 6364136223846793005 + k * 1442695040888963407) % 2 ^ 64, 0⟩

/-- carve_tunnels_random_walk invoked with an explicit integer seed, as in
the source where the generator is seeded once at entry (tunnelling.py:50). -/
def carve_tunnels_random_walk_seeded (n : ℕ) (field : Field3) (mask : Mask3)
    (n_agents agent_steps : ℤ) (radius reduction_factor : ℚ) (seed : ℕ) :
    Field3 :=
  carve_tunnels_random_walk n field mask n_agents agent_steps radius
    reduction_factor (seedStream seed)

/-! ## Mesh operations (mesh_operations.py) -/

/-- A mesh snapshot: vertex positions and triangular faces carried as data,
together with the derived geometric predicates and measurements that the
trimesh library computes for the snapshot (watertightness, winding
consistency, volume enclosure, volume, surface area, bounding box); the
validator consumes them as attributes of the mesh object. -/
structure Mesh where
  vertices : List Vec3
  faces : List (ℕ × ℕ × ℕ)
  is_watertight : Bool
  is_winding_consistent : Bool
  is_volume : Bool
  volume : ℚ
  area : ℚ
  bounds_lo : Vec3
  bounds_hi : Vec3
deriving DecidableEq

/-- Vertex of a mesh by index (out-of-range indices give the origin; valid
meshes never index out of range). -/
def vertexAt (m : Mesh) (i : ℕ) : Vec3 := m.vertices.getD i (0, 0, 0)

/-- Squared norm of the edge cross product of a triangular face; the face
area trimesh computes is half its square root. -/
def faceCrossNormSq (m : Mesh) (f : ℕ × ℕ × ℕ) : ℚ :=
  normSq (crossProd (vsub (vertexAt m f.2.1) (vertexAt m f.1))
                    (vsub (vertexAt m f.2.2) (vertexAt m f.1)))

/-- Absolute tolerance of np.isclose. -/
def atolQ : ℚ := 1 / 10 ^ 8

/-- Models np.isclose(area, 0) on a face area (mesh_operations.py:214):
|area| ≤ 1e-8 with area = ‖cross‖ / 2, translated exactly on squares as
‖cross‖² ≤ (2·1e-8)². -/
def faceAreaNearZero (m : Mesh) (f : ℕ × ℕ × ℕ) : Bool :=
  decide (faceCrossNormSq m f ≤ (2 * atolQ) ^ 2)

/-- The count np.isclose(mesh.area_faces, 0).sum() of degenerate faces. -/
def degenerateCount (m : Mesh) : ℕ :=
  (m.faces.filter (faceAreaNearZero m)).length

/-- len(np.unique(mesh.vertices, axis=0)): the number of distinct vertex
positions. -/
def uniqueVertexCount (m : Mesh) : ℕ := m.vertices.dedup.length

/-- Duplicate vertex count: vertices minus distinct vertex positions
(mesh_operations.py:221-222). -/
def duplicateCount (m : Mesh) : ℕ := m.vertices.length - uniqueVertexCount m

/-- The dictionary validate_mesh returns, as a record; the
degenerate_faces and duplicate_vertices keys are optional because the
source only inserts them when the counts are positive. -/
structure ValidationReport where
  is_valid : Bool
  is_watertight : Bool
  is_winding_consistent : Bool
  num_vertices : ℕ
  num_faces : ℕ
  volume : Option ℚ
  surface_area : ℚ
  bounds : Vec3 × Vec3
  warnings : List String
  errors : List String
  degenerate_faces : Option ℕ
  duplicate_vertices : Option ℕ
  dimensions : Vec3
  has_degenerate_faces : Bool
  has_duplicate_vertices : Bool
  is_volume : Bool
deriving DecidableEq

/-- Embeds validate_mesh (mesh_operations.py:159-246), mirroring its
sequential updates: validity starts true, is cleared by a watertightness
failure or a positive degenerate-face count, and by nothing else; winding
inconsistency, duplicate vertices and the small-mesh non-volume heuristic
only append warnings. -/
def validate_mesh (m : Mesh) : ValidationReport :=
  let valid0 := true
  let errors0 : List String := []
  let warnings0 : List String := []
  let valid1 := if m.is_watertight then valid0 else false
  let errors1 := if m.is_watertight then errors0
    else errors0 ++ ["Mesh is not watertight (has holes)"]
  let warnings1 := if m.is_winding_consistent then warnings0
    else warnings0 ++ ["Face winding is inconsistent"]
  let degenerate := degenerateCount m
  let valid2 := if 0 < degenerate then false else valid1
  let errors2 := if 0 < degenerate then
      errors1 ++ ["Found " ++ toString degenerate ++ " degenerate faces (zero area)"]
    else errors1
  let degKey := if 0 < degenerate then some degenerate else none
  let duplicates := duplicateCount m
  let warnings2 := if 0 < duplicates then
      warnings1 ++ ["Found " ++ toString duplicates ++ " duplicate vertices"]
    else warnings1
  let dupKey := if 0 < duplicates then some duplicates else none
  let warnings3 := if m.faces.length < 50000 && !m.is_volume then
      warnings2 ++ ["Mesh may have self-intersections or is not a volume"]
    else warnings2
  { is_valid := valid2
    is_watertight := m.is_watertight
    is_winding_consistent := m.is_winding_consistent
    num_vertices := m.vertices.length
    num_faces := m.faces.length
    volume := if m.is_volume then some m.volume else none
    surface_area := m.area
    bounds := (m.bounds_lo, m.bounds_hi)
    warnings := warnings3
    errors := errors2
    degenerate_faces := degKey
    duplicate_vertices := dupKey
    dimensions := vsub m.bounds_hi m.bounds_lo
    has_degenerate_faces := decide (0 < degenerate)
    has_duplicate_vertices := decide (0 < duplicates)
    is_volume := m.is_volume }

/-! ## Smoothing, decimation and isosurface extraction -/

/-- The vertex/face data of a mesh, the part smoothing reads and writes. -/
abbrev MeshData := List Vec3 × List (ℕ × ℕ × ℕ)

/-- Whether a triangular face carries an (undirected) edge between vertex
indices i and j; face (a, b, c) has the edges (a,b), (b,c), (c,a). -/
def faceHasEdge (i j : ℕ) (f : ℕ × ℕ × ℕ) : Bool :=
  (decide (f.1 = i) && decide (f.2.1 = j)) ||
  (decide (f.2.1 = i) && decide (f.2.2 = j)) ||
  (decide (f.2.2 = i) && decide (f.1 = j)) ||
  (decide (f.1 = j) && decide (f.2.1 = i)) ||
  (decide (f.2.1 = j) && decide (f.2.2 = i)) ||
  (decide (f.2.2 = j) && decide (f.1 = i))

/-- Models mesh.vertex_neighbors for vertex i: the set of vertex indices
sharing an edge with i in the face list, each listed once. -/
def vertexNeighbors (faces : List (ℕ × ℕ × ℕ)) (nv i : ℕ) : List ℕ :=
  (List.range nv).filter fun j => faces.any (faceHasEdge i j)

/-- Componentwise sum of a list of vectors. -/
def vecSum (l : List Vec3) : Vec3 := l.foldr vadd (0, 0, 0)

/-- numpy mean(axis=0) over the positions of the given vertex indices. -/
def neighborMean (old : List Vec3) (nbrs : List ℕ) : Vec3 :=
  vsmul (1 / (nbrs.length : ℚ)) (vecSum (nbrs.map fun j => old.getD j (0, 0, 0)))

/-- The smoothed position of vertex i computed from the pre-pass
positions (mesh_operations.py:148-152). -/
def smoothedVertex (faces : List (ℕ × ℕ × ℕ)) (lam : ℚ) (old : List Vec3)
    (i : ℕ) : Vec3 :=
  vadd (vsmul (1 - lam) (old.getD i (0, 0, 0)))
       (vsmul lam (neighborMean old (vertexNeighbors faces old.length i)))

/-- One smoothing pass executed over an explicit vertex processing order:
new_vertices starts as a copy of the current vertices and the loop
overwrites entry i, when it has neighbors, with a value computed from the
pre-pass vertices only. -/
def smoothPassOrdered (faces : List (ℕ × ℕ × ℕ)) (lam : ℚ) (old : List Vec3)
    (order : List ℕ) : List Vec3 :=
  order.foldl
    (fun acc i =>
      if 0 < (vertexNeighbors faces old.length i).length then
        acc.set i (smoothedVertex faces lam old i)
      else acc)
    old

/-- One smoothing pass as the source writes it (mesh_operations.py:140-154):
the loop enumerates the vertex indices in order. -/
def smoothPassLoop (faces : List (ℕ × ℕ × ℕ)) (lam : ℚ) (old : List Vec3) :
    List Vec3 :=
  smoothPassOrdered faces lam old (List.range old.length)

/-- Modelled from the spec: one smoothing pass described pointwise — every
vertex with at least one edge-sharing neighbor becomes
(1-λ)·v + λ·mean(neighbors), every other vertex is unchanged, all reads
from the pre-pass positions. -/
def smoothPassPointwise (faces : List (ℕ × ℕ × ℕ)) (lam : ℚ)
    (old : List Vec3) : List Vec3 :=
  (List.range old.length).map fun i =>
    if 0 < (vertexNeighbors faces old.length i).length then
      smoothedVertex faces lam old i
    else old.getD i (0, 0, 0)

/-- Embeds smooth_mesh (mesh_operations.py:119-156): iterations passes of
uniform Laplacian smoothing applied to a copy of the mesh; the face list is
never modified. -/
def smooth_mesh (m : MeshData) (iterations : ℕ) (lam : ℚ) : MeshData :=
  (Nat.iterate (smoothPassLoop m.2 lam) iterations m.1, m.2)

/-- The possible results of decimate_mesh: the source either returns the
input mesh object itself, unchanged and uncopied (mesh_operations.py:266-267),
or a freshly built simplified mesh. -/
inductive DecimateResult where
  | inputMesh : DecimateResult
  | newMesh : Mesh → DecimateResult
deriving DecidableEq

/-- Embeds decimate_mesh (mesh_operations.py:249-272); the quadric
simplification performed by trimesh is passed in as a function, since only
which object is returned matters to the claims. -/
def decimate_mesh (simplify : Mesh → ℕ → Mesh) (m : Mesh) (target_faces : ℕ) :
    DecimateResult :=
  if m.faces.length ≤ target_faces then DecimateResult.inputMesh
  else DecimateResult.newMesh (simplify m target_faces)

/-- All sample values of an n×n×n field, in row-major order. -/
def fieldValues (n : ℕ) (f : Field3) : List ℚ :=
  (List.range n).flatMap fun i =>
    (List.range n).flatMap fun j =>
      (List.range n).map fun k => f i j k

/-- Embeds extract_isosurface (mesh_operations.py:17-66). The 3D-shape
check is carried by the Field3 type. The marching-cubes call is modelled
from the scikit-image contract: when the isovalue lies outside the range
[min(field), max(field)] the library raises
ValueError("Surface level must be within volume data range."), which the
source propagates; otherwise the reconstruction (passed in as a function,
since its geometry is external library code) produces the surface, which is
smoothed with the default λ = 1/2 when requested. -/
def extract_isosurface (mc : Field3 → ℚ → MeshData) (n : ℕ) (field : Field3)
    (isovalue : ℚ) (smooth : Bool) (smooth_iterations : ℕ) :
    Except String MeshData :=
  match (fieldValues n field).min?, (fieldValues n field).max? with
  | some lo, some hi =>
      if isovalue < lo ∨ hi < isovalue then
        Except.error "Surface level must be within volume data range."
      else
        let m := mc field isovalue
        Except.ok (if smooth then smooth_mesh m smooth_iterations (1 / 2) else m)
  | _, _ => Except.error "zero-size array to reduction operation minimum which has no identity"

/-- A concrete one-face mesh whose face is collinear and hence has zero
area; it is not watertight. -/
def degenerateMesh : Mesh :=
  { vertices := [(0, 0, 0), (1, 0, 0), (2, 0, 0)]
    faces := [(0, 1, 2)]
    is_watertight := false
    is_winding_consistent := true
    is_volume := false
    volume := 0
    area := 0
    bounds_lo := (0, 0, 0)
    bounds_hi := (2, 0, 0) }

/-- A trivial stand-in for the trimesh quadric simplification routine. -/
def simplifyId : Mesh → ℕ → Mesh := fun m _ => m

/-! ## Claim C3: cylinder mask versus vase mask -/

/-- C3 counterexample: at n = 2, r = 7/10 the value returned by
make_cylinder_mask is not the bare boolean mask that is the first component
of make_vase_mask with zero taper — the source returns the full
(mask, Z_norm) tuple, whose Z_norm component differs from the mask. -/
theorem make_cylinder_mask_not_bare_mask_cex :
    ¬ cylinder_equals_vase_mask_only 2 (7 / 10) := by
  intro h
  have h2 := h.2 0 0 1 (by norm_num) (by norm_num) (by norm_num)
  simp only [make_cylinder_mask, make_vase_mask, linAt, boolToRat,
    decide_eq_true_eq] at h2
  norm_num at h2

/-- C3 (amended): make_cylinder_mask(n, r) equals the full tuple
make_vase_mask(n, r, taper=0); in particular its mask component is the vase
mask with zero taper, and that mask is independent of the height index
(the zero-taper vase degenerates to a cylinder). -/
theorem make_cylinder_mask_eq_vase_pair (n : ℕ) (r : ℚ) :
    make_cylinder_mask n r = make_vase_mask n r 0 ∧
    (make_cylinder_mask n r).1 = (make_vase_mask n r 0).1 ∧
    ∀ i j k k', (make_cylinder_mask n r).1 i j k
      = (make_cylinder_mask n r).1 i j k' := by
  refine ⟨rfl, rfl, ?_⟩
  intro i j k k'
  simp only [make_cylinder_mask, make_vase_mask, zero_mul, sub_zero, mul_one]

/-! ## Claim C4: degenerate carver inputs -/

theorem mem_maskCoords {n : ℕ} {mask : Mask3} {p : Pos} :
    p ∈ maskCoords n mask ↔
      p.1 < n ∧ p.2.1 < n ∧ p.2.2 < n ∧ mask p.1 p.2.1 p.2.2 = true := by
  obtain ⟨i, j, k⟩ := p
  simp only [maskCoords, List.mem_flatMap, List.mem_filterMap, List.mem_range]
  constructor
  · rintro ⟨a, ha, b, hb, c, hc, hif⟩
    by_cases hm : mask a b c = true
    · rw [if_pos hm] at hif
      obtain ⟨rfl, rfl, rfl⟩ : a = i ∧ b = j ∧ c = k := by
        simpa using hif
      exact ⟨ha, hb, hc, hm⟩
    · rw [if_neg hm] at hif
      exact absurd hif (by simp)
  · rintro ⟨hi, hj, hk, hm⟩
    exact ⟨i, hi, j, hj, k, ⟨hk, by rw [if_pos hm]⟩⟩

theorem maskCoords_eq_nil {n : ℕ} {mask : Mask3}
    (h : ∀ i j k, i < n → j < n → k < n → mask i j k = false) :
    maskCoords n mask = [] := by
  rw [List.eq_nil_iff_forall_not_mem]
  intro p hp
  rw [mem_maskCoords] at hp
  have := h p.1 p.2.1 p.2.2 hp.1 hp.2.1 hp.2.2.1
  rw [hp.2.2.2] at this
  exact Bool.noConfusion this

/-- C4 (confirmed): when the agent count or step budget is nonpositive, or
the mask has no True cell, carve_tunnels_random_walk returns the field
unmodified (elementwise equal to the input; the function is total, so no
exception path exists). -/
theorem carve_degenerate_inputs_identity (n : ℕ) (field : Field3)
    (mask : Mask3) (n_agents agent_steps : ℤ) (radius reduction_factor : ℚ)
    (rng : Rng)
    (h : n_agents ≤ 0 ∨ agent_steps ≤ 0 ∨
      ∀ i j k, i < n → j < n → k < n → mask i j k = false) :
    carve_tunnels_random_walk n field mask n_agents agent_steps radius
      reduction_factor rng = field := by
  unfold carve_tunnels_random_walk carveCore
  rcases h with h | h | h
  · rw [if_pos (Or.inl h)]
  · rw [if_pos (Or.inr h)]
  · by_cases hd : n_agents ≤ 0 ∨ agent_steps ≤ 0
    · rw [if_pos hd]
    · rw [if_neg hd, maskCoords_eq_nil h]
      rfl

/-- Witness for C4 at a concrete degenerate input (zero agents). -/
theorem carve_degenerate_inputs_identity_witness :
    carve_tunnels_random_walk 2 (fun (i j k : ℕ) => (i : ℚ) + (j : ℚ) + (k : ℚ))
      (fun _ _ _ => true) 0 5 1 (1 / 2) ⟨fun _ => 0, 0⟩
      = fun (i j k : ℕ) => (i : ℚ) + (j : ℚ) + (k : ℚ) :=
  carve_degenerate_inputs_identity 2 _ _ 0 5 1 (1 / 2) _
    (Or.inl (by decide))

/-! ## Claim C7: seeded determinism -/

/-- C7 (confirmed): the generator state is a function of the explicit seed
alone, so two carver runs with identical inputs and equal seeds return
identical output fields. -/
theorem carve_seeded_deterministic (n : ℕ) (field : Field3) (mask : Mask3)
    (n_agents agent_steps : ℤ) (radius reduction_factor : ℚ)
    (seed seed' : ℕ) (h : seed = seed') :
    carve_tunnels_random_walk_seeded n field mask n_agents agent_steps radius
        reduction_factor seed
      = carve_tunnels_random_walk_seeded n field mask n_agents agent_steps
        radius reduction_factor seed' := by
  rw [h]

/-- Witness for C7: repeated runs with seed 42 on the end-to-end scenario
parameters agree. -/
theorem carve_seeded_deterministic_witness :
    carve_tunnels_random_walk_seeded 2 (fun _ _ _ => 1) (fun _ _ _ => true)
        1 20 2 (3 / 10) 42
      = carve_tunnels_random_walk_seeded 2 (fun _ _ _ => 1) (fun _ _ _ => true)
        1 20 2 (3 / 10) 42 :=
  carve_seeded_deterministic 2 _ _ 1 20 2 (3 / 10) 42 42 rfl

/-! ## Claim C5: carving never increases a non-negative field -/

theorem carveStep_nonneg_le (n : ℕ) (radius rf : ℚ) (p : Pos) (f : Field3)
    (hf : ∀ i j k, 0 ≤ f i j k) (h0 : 0 ≤ rf) (h1 : rf ≤ 1) (i j k : ℕ) :
    0 ≤ carveStep n radius rf p f i j k ∧
      carveStep n radius rf p f i j k ≤ f i j k := by
  unfold carveStep
  split
  · refine ⟨mul_nonneg h0 (hf i j k), ?_⟩
    calc rf * f i j k ≤ 1 * f i j k :=
          mul_le_mul_of_nonneg_right h1 (hf i j k)
      _ = f i j k := one_mul _
  · exact ⟨hf i j k, le_refl _⟩

theorem walkSteps_nonneg_le (n : ℕ) (mask : Mask3) (coords : List Pos)
    (radius rf : ℚ) (h0 : 0 ≤ rf) (h1 : rf ≤ 1) :
    ∀ (steps : ℕ) (p : Pos) (rng : Rng) (f : Field3),
      (∀ i j k, 0 ≤ f i j k) →
      ∀ i j k,
        0 ≤ (walkSteps n mask coords radius rf steps p rng f).1 i j k ∧
        (walkSteps n mask coords radius rf steps p rng f).1 i j k ≤ f i j k := by
  intro steps
  induction steps with
  | zero =>
      intro p rng f hf i j k
      exact ⟨hf i j k, le_refl _⟩
  | succ m ih =>
      intro p rng f hf i j k
      have hstep := carveStep_nonneg_le n radius rf p f hf h0 h1
      have hf' : ∀ i j k, 0 ≤ carveStep n radius rf p f i j k :=
        fun i j k => (hstep i j k).1
      simp only [walkSteps]
      split
      · exact ⟨(ih _ _ _ hf' i j k).1,
          le_trans (ih _ _ _ hf' i j k).2 (hstep i j k).2⟩
      · exact ⟨(ih _ _ _ hf' i j k).1,
          le_trans (ih _ _ _ hf' i j k).2 (hstep i j k).2⟩

theorem agentsLoop_nonneg_le (n : ℕ) (mask : Mask3) (coords : List Pos)
    (radius rf : ℚ) (steps : ℕ) (h0 : 0 ≤ rf) (h1 : rf ≤ 1) :
    ∀ (a : ℕ) (rng : Rng) (f : Field3),
      (∀ i j k, 0 ≤ f i j k) →
      ∀ i j k,
        0 ≤ (agentsLoop n mask coords radius rf steps a rng f).1 i j k ∧
        (agentsLoop n mask coords radius rf steps a rng f).1 i j k ≤ f i j k := by
  intro a
  induction a with
  | zero =>
      intro rng f hf i j k
      exact ⟨hf i j k, le_refl _⟩
  | succ m ih =>
      intro rng f hf i j k
      have hwalk := walkSteps_nonneg_le n mask coords radius rf h0 h1 steps
        (drawCoord coords rng).1 (drawCoord coords rng).2 f hf
      have hf' : ∀ i j k,
          0 ≤ (walkSteps n mask coords radius rf steps
            (drawCoord coords rng).1 (drawCoord coords rng).2 f).1 i j k :=
        fun i j k => (hwalk i j k).1
      simp only [agentsLoop]
      exact ⟨(ih _ _ hf' i j k).1,
        le_trans (ih _ _ hf' i j k).2 (hwalk i j k).2⟩

/-- C5 (confirmed): for an elementwise non-negative field and a reduction
factor in [0, 1], every element of the carved field is at most the
corresponding element of the input, for every mask, radius, agent count,
step budget and draw stream. -/
theorem carve_monotone_decrease (n : ℕ) (field : Field3) (mask : Mask3)
    (n_agents agent_steps : ℤ) (radius reduction_factor : ℚ) (rng : Rng)
    (hf : ∀ i j k, 0 ≤ field i j k)
    (h0 : 0 ≤ reduction_factor) (h1 : reduction_factor ≤ 1) :
    ∀ i j k,
      carve_tunnels_random_walk n field mask n_agents agent_steps radius
        reduction_factor rng i j k ≤ field i j k := by
  intro i j k
  unfold carve_tunnels_random_walk carveCore
  split
  · exact le_refl _
  · split
    · exact le_refl _
    · exact (agentsLoop_nonneg_le n mask (maskCoords n mask) radius
        reduction_factor agent_steps.toNat h0 h1 n_agents.toNat rng field hf
        i j k).2

/-- Witness for C5 on a concrete carving run (one agent, one step, all-ones
field, full mask). -/
theorem carve_monotone_decrease_witness :
    carve_tunnels_random_walk 2 (fun _ _ _ => 1) (fun _ _ _ => true) 1 1 1
        (1 / 2) ⟨fun _ => 0, 0⟩ 0 0 0
      ≤ (fun (_ _ _ : ℕ) => (1 : ℚ)) 0 0 0 :=
  carve_monotone_decrease 2 _ _ 1 1 1 (1 / 2) _
    (fun _ _ _ => by norm_num) (by norm_num) (by norm_num) 0 0 0

/-! ## Claim C6: the restart invariant and the step budget -/

theorem drawCoord_mem {coords : List Pos} (h : coords ≠ []) (r : Rng) :
    (drawCoord coords r).1 ∈ coords := by
  simp only [drawCoord, Rng.integers, Rng.next]
  have hl : 0 < coords.length := List.length_pos.mpr h
  have hne : (coords.length : ℤ) ≠ 0 := by exact_mod_cast hl.ne'
  have hnn : 0 ≤ ((r.σ r.k : ℕ) : ℤ) % ((coords.length : ℤ) - 0) := by
    rw [sub_zero]
    exact Int.emod_nonneg _ hne
  have hlt : ((r.σ r.k : ℕ) : ℤ) % ((coords.length : ℤ) - 0)
      < (coords.length : ℤ) := by
    rw [sub_zero]
    exact Int.emod_lt_of_pos _ (by exact_mod_cast hl)
  have hidx : (0 + ((r.σ r.k : ℕ) : ℤ) % ((coords.length : ℤ) - 0)).toNat
      < coords.length := by omega
  rw [List.getD_eq_getElem _ _ hidx]
  exact List.getElem_mem hidx

theorem walkSteps_trace (n : ℕ) (mask : Mask3) (coords : List Pos)
    (radius rf : ℚ) (hne : coords ≠ [])
    (hcoords : ∀ q ∈ coords, mask q.1 q.2.1 q.2.2 = true) :
    ∀ (steps : ℕ) (p : Pos) (rng : Rng) (f : Field3),
      mask p.1 p.2.1 p.2.2 = true →
      (walkSteps n mask coords radius rf steps p rng f).2.2.length = steps ∧
      ∀ q ∈ (walkSteps n mask coords radius rf steps p rng f).2.2,
        mask q.1 q.2.1 q.2.2 = true := by
  intro steps
  induction steps with
  | zero =>
      intro p rng f _
      exact ⟨rfl, by intro q hq; exact absurd hq (List.not_mem_nil q)⟩
  | succ m ih =>
      intro p rng f hp
      simp only [walkSteps]
      split
      · rename_i hmask
        refine ⟨?_, ?_⟩
        · simpa using (ih _ _ _ hmask).1
        · intro q hq
          rcases List.mem_cons.mp hq with rfl | hq'
          · exact hp
          · exact (ih _ _ _ hmask).2 q hq'
      · refine ⟨?_, ?_⟩
        · simpa using (ih _ _ _ (hcoords _ (drawCoord_mem hne _))).1
        · intro q hq
          rcases List.mem_cons.mp hq with rfl | hq'
          · exact hp
          · exact (ih _ _ _ (hcoords _ (drawCoord_mem hne _))).2 q hq'

theorem agentsLoop_trace (n : ℕ) (mask : Mask3) (coords : List Pos)
    (radius rf : ℚ) (steps : ℕ) (hne : coords ≠ [])
    (hcoords : ∀ q ∈ coords, mask q.1 q.2.1 q.2.2 = true) :
    ∀ (a : ℕ) (rng : Rng) (f : Field3),
      (agentsLoop n mask coords radius rf steps a rng f).2.2.length
        = a * steps ∧
      ∀ q ∈ (agentsLoop n mask coords radius rf steps a rng f).2.2,
        mask q.1 q.2.1 q.2.2 = true := by
  intro a
  induction a with
  | zero =>
      intro rng f
      exact ⟨by simp [agentsLoop],
        by intro q hq; exact absurd hq (List.not_mem_nil q)⟩
  | succ m ih =>
      intro rng f
      simp only [agentsLoop]
      have hstart := hcoords _ (drawCoord_mem hne rng)
      have hwalk := walkSteps_trace n mask coords radius rf hne hcoords steps
        (drawCoord coords rng).1 (drawCoord coords rng).2 f hstart
      refine ⟨?_, ?_⟩
      · rw [List.length_append, hwalk.1, (ih _ _).1]
        ring
      · intro q hq
        rcases List.mem_append.mp hq with hq' | hq'
        · exact hwalk.2 q hq'
        · exact (ih _ _).2 q hq'

/-- C6 (confirmed): with a positive agent count and step budget and a
non-empty mask, the position at the start of every carving iteration is a
True mask cell — an agent stepping outside the mask restarts at a cell
drawn from the True cells rather than terminating — and the trace has
exactly n_agents × agent_steps entries, so the full per-agent budget is
always consumed. -/
theorem carve_trace_in_mask_budget (n : ℕ) (field : Field3) (mask : Mask3)
    (n_agents agent_steps : ℤ) (radius reduction_factor : ℚ) (rng : Rng)
    (ha : 0 < n_agents) (hs : 0 < agent_steps)
    (hne : maskCoords n mask ≠ []) :
    (carveWalkTrace n field mask n_agents agent_steps radius reduction_factor
        rng).length = n_agents.toNat * agent_steps.toNat ∧
    ∀ p ∈ carveWalkTrace n field mask n_agents agent_steps radius
        reduction_factor rng,
      mask p.1 p.2.1 p.2.2 = true := by
  unfold carveWalkTrace carveCore
  rw [if_neg (by omega), if_neg (by simpa [List.isEmpty_iff] using hne)]
  exact agentsLoop_trace n mask (maskCoords n mask) radius reduction_factor
    agent_steps.toNat hne
    (fun q hq => (mem_maskCoords.mp hq).2.2.2) n_agents.toNat rng field

/-- Witness for C6 on a concrete run (one agent, two steps, full mask on a
1×1×1 grid). -/
theorem carve_trace_in_mask_budget_witness :
    (carveWalkTrace 1 (fun _ _ _ => 1) (fun _ _ _ => true) 1 2 1 (1 / 2)
        ⟨fun _ => 0, 0⟩).length = (1 : ℤ).toNat * (2 : ℤ).toNat ∧
    ∀ p ∈ carveWalkTrace 1 (fun _ _ _ => 1) (fun _ _ _ => true) 1 2 1 (1 / 2)
        ⟨fun _ => 0, 0⟩,
      (fun (_ _ _ : ℕ) => true) p.1 p.2.1 p.2.2 = true :=
  carve_trace_in_mask_budget 1 _ _ 1 2 1 (1 / 2) _ (by decide) (by decide)
    (by decide)

/-! ## Claim C9: Laplacian smoothing reads pre-pass positions -/

theorem smoothPassOrdered_length (faces : List (ℕ × ℕ × ℕ)) (lam : ℚ)
    (old : List Vec3) :
    ∀ (order : List ℕ) (acc : List Vec3),
      (order.foldl
        (fun acc i =>
          if 0 < (vertexNeighbors faces old.length i).length then
            acc.set i (smoothedVertex faces lam old i)
          else acc) acc).length = acc.length := by
  intro order
  induction order with
  | nil => intro acc; rfl
  | cons x xs ih =>
      intro acc
      rw [List.foldl_cons, ih]
      split
      · exact List.length_set acc x _
      · rfl

theorem smoothPassOrdered_getD (faces : List (ℕ × ℕ × ℕ)) (lam : ℚ)
    (old : List Vec3) :
    ∀ (order : List ℕ) (acc : List Vec3), order.Nodup →
      acc.length = old.length →
      ∀ (j : ℕ) (d : Vec3),
        (order.foldl
          (fun acc i =>
            if 0 < (vertexNeighbors faces old.length i).length then
              acc.set i (smoothedVertex faces lam old i)
            else acc) acc).getD j d
          = if j ∈ order ∧ 0 < (vertexNeighbors faces old.length j).length ∧
              j < old.length
            then smoothedVertex faces lam old j
            else acc.getD j d := by
  intro order
  induction order with
  | nil =>
      intro acc _ _ j d
      simp
  | cons x xs ih =>
      intro acc hnd hlen j d
      have hx : x ∉ xs := (List.nodup_cons.mp hnd).1
      have hnd' : xs.Nodup := (List.nodup_cons.mp hnd).2
      rw [List.foldl_cons]
      by_cases hcx : 0 < (vertexNeighbors faces old.length x).length
      · rw [if_pos hcx]
        have hlen' : (acc.set x (smoothedVertex faces lam old x)).length
            = old.length := by rw [List.length_set]; exact hlen
        rw [ih _ hnd' hlen' j d]
        by_cases hjxs : j ∈ xs
        · by_cases hcj : 0 < (vertexNeighbors faces old.length j).length ∧
              j < old.length
          · rw [if_pos ⟨hjxs, hcj.1, hcj.2⟩,
              if_pos ⟨List.mem_cons_of_mem x hjxs, hcj.1, hcj.2⟩]
          · rw [if_neg (fun h => hcj ⟨h.2.1, h.2.2⟩),
              if_neg (fun h => hcj ⟨h.2.1, h.2.2⟩)]
            have hjx : j ≠ x := fun h => hx (h ▸ hjxs)
            rw [List.getD_eq_getElem?_getD, List.getElem?_set_ne hjx.symm,
              ← List.getD_eq_getElem?_getD]
        · rw [if_neg (fun h => hjxs h.1)]
          by_cases hjx : j = x
          · subst hjx
            by_cases hjlt : j < old.length
            · rw [if_pos ⟨List.mem_cons_self j xs, hcx, hjlt⟩]
              rw [List.getD_eq_getElem _ _ (by rw [List.length_set, hlen]; exact hjlt)]
              exact List.getElem_set_self _
            · rw [if_neg (fun h => hjlt h.2.2)]
              rw [List.set_eq_of_length_le (by rw [hlen]; omega)]
          · rw [if_neg (fun h => by
              rcases List.mem_cons.mp h.1 with h' | h'
              · exact hjx h'
              · exact hjxs h')]
            rw [List.getD_eq_getElem?_getD, List.getElem?_set_ne
              (fun h => hjx h.symm), ← List.getD_eq_getElem?_getD]
      · rw [if_neg hcx]
        rw [ih _ hnd' hlen j d]
        by_cases hjxs : j ∈ xs
        · by_cases hcj : 0 < (vertexNeighbors faces old.length j).length ∧
              j < old.length
          · rw [if_pos ⟨hjxs, hcj.1, hcj.2⟩,
              if_pos ⟨List.mem_cons_of_mem x hjxs, hcj.1, hcj.2⟩]
          · rw [if_neg (fun h => hcj ⟨h.2.1, h.2.2⟩),
              if_neg (fun h => hcj ⟨h.2.1, h.2.2⟩)]
        · rw [if_neg (fun h => hjxs h.1)]
          by_cases hjx : j = x
          · subst hjx
            rw [if_neg (fun h => hcx h.2.1)]
          · rw [if_neg (fun h => by
              rcases List.mem_cons.mp h.1 with h' | h'
              · exact hjx h'
              · exact hjxs h')]

theorem smoothPassPointwise_getD (faces : List (ℕ × ℕ × ℕ)) (lam : ℚ)
    (old : List Vec3) (i : ℕ) (hi : i < old.length) :
    (smoothPassPointwise faces lam old).getD i (0, 0, 0)
      = if 0 < (vertexNeighbors faces old.length i).length then
          smoothedVertex faces lam old i
        else old.getD i (0, 0, 0) := by
  unfold smoothPassPointwise
  rw [List.getD_eq_getElem _ _ (by simpa using hi)]
  rw [List.getElem_map, List.getElem_range]

theorem smoothPassOrdered_eq_pointwise (faces : List (ℕ × ℕ × ℕ)) (lam : ℚ)
    (old : List Vec3) (order : List ℕ)
    (hperm : order.Perm (List.range old.length)) :
    smoothPassOrdered faces lam old order
      = smoothPassPointwise faces lam old := by
  have hnd : order.Nodup := hperm.nodup_iff.mpr (List.nodup_range _)
  have hlen1 : (smoothPassOrdered faces lam old order).length = old.length :=
    smoothPassOrdered_length faces lam old order old
  have hlen2 : (smoothPassPointwise faces lam old).length = old.length := by
    simp [smoothPassPointwise]
  apply List.ext_getElem (by rw [hlen1, hlen2])
  intro i h1 h2
  have hi : i < old.length := by rw [← hlen1]; exact h1
  rw [← List.getD_eq_getElem _ ((0 : ℚ), (0 : ℚ), (0 : ℚ)) h1,
    ← List.getD_eq_getElem _ ((0 : ℚ), (0 : ℚ), (0 : ℚ)) h2]
  unfold smoothPassOrdered
  rw [smoothPassOrdered_getD faces lam old order old hnd rfl i _]
  have hmem : i ∈ order := hperm.mem_iff.mpr (List.mem_range.mpr hi)
  rw [smoothPassPointwise_getD faces lam old i hi]
  by_cases hc : 0 < (vertexNeighbors faces old.length i).length
  · rw [if_pos ⟨hmem, hc, hi⟩, if_pos hc]
  · rw [if_neg (fun h => hc h.2.1), if_neg hc]

/-- C9 (confirmed): smooth_mesh iterates a pass that is pointwise — every
vertex with at least one edge-sharing neighbor becomes
(1-λ)·v + λ·mean(neighbors), computed from the pre-pass positions only;
the per-pass result is the same for every processing order of the vertex
indices; vertices with no neighbors are unchanged; the face list is never
modified. -/
theorem smooth_mesh_pointwise_pre_pass (m : MeshData) (iterations : ℕ)
    (lam : ℚ) :
    smooth_mesh m iterations lam
      = (Nat.iterate (smoothPassPointwise m.2 lam) iterations m.1, m.2) ∧
    (∀ (old : List Vec3) (order : List ℕ),
        order.Perm (List.range old.length) →
        smoothPassOrdered m.2 lam old order
          = smoothPassPointwise m.2 lam old) ∧
    (∀ (old : List Vec3) (i : ℕ),
        vertexNeighbors m.2 old.length i = [] →
        (smoothPassPointwise m.2 lam old).getD i (0, 0, 0)
          = old.getD i (0, 0, 0)) := by
  have hfun : smoothPassLoop m.2 lam = smoothPassPointwise m.2 lam := by
    funext old
    exact smoothPassOrdered_eq_pointwise m.2 lam old _ (List.Perm.refl _)
  refine ⟨?_, ?_, ?_⟩
  · unfold smooth_mesh
    rw [hfun]
  · intro old order hperm
    exact smoothPassOrdered_eq_pointwise m.2 lam old order hperm
  · intro old i hnil
    by_cases hi : i < old.length
    · rw [smoothPassPointwise_getD m.2 lam old i hi, hnil]
      simp
    · rw [List.getD_eq_default _ _
          (by simpa [smoothPassPointwise] using not_lt.mp hi),
        List.getD_eq_default _ _ (not_lt.mp hi)]

/-- Witness for C9: a one-vertex mesh with no faces, processed in the
explicit order [0]. -/
theorem smooth_mesh_pointwise_pre_pass_witness :
    smoothPassOrdered [] ((1 : ℚ) / 2) [((0 : ℚ), (0 : ℚ), (0 : ℚ))] [0]
      = smoothPassPointwise [] ((1 : ℚ) / 2) [((0 : ℚ), (0 : ℚ), (0 : ℚ))] ∧
    (smoothPassPointwise [] ((1 : ℚ) / 2)
        [((0 : ℚ), (0 : ℚ), (0 : ℚ))]).getD 0 (0, 0, 0)
      = [((0 : ℚ), (0 : ℚ), (0 : ℚ))].getD 0 (0, 0, 0) :=
  ⟨(smooth_mesh_pointwise_pre_pass ([((0 : ℚ), (0 : ℚ), (0 : ℚ))], []) 1
      ((1 : ℚ) / 2)).2.1 [((0 : ℚ), (0 : ℚ), (0 : ℚ))] [0]
      (by simp [List.range_succ]),
   (smooth_mesh_pointwise_pre_pass ([((0 : ℚ), (0 : ℚ), (0 : ℚ))], []) 1
      ((1 : ℚ) / 2)).2.2 [((0 : ℚ), (0 : ℚ), (0 : ℚ))] 0 (by rfl)⟩

/-! ## Claim C2: overall validity is watertight AND no degenerate faces -/

/-- C2 (confirmed): validate_mesh reports is_valid exactly when the mesh is
watertight and has no near-zero-area face; a positive degenerate count
forces is_valid false and records the exact count; the winding flag never
influences validity (it only contributes a warning), and validity depends
on nothing else in the report. -/
theorem validate_mesh_validity (m : Mesh) :
    ((validate_mesh m).is_valid = true ↔
      (m.is_watertight = true ∧ degenerateCount m = 0)) ∧
    (0 < degenerateCount m →
      (validate_mesh m).is_valid = false ∧
      (validate_mesh m).degenerate_faces = some (degenerateCount m)) ∧
    (∀ b, (validate_mesh { m with is_winding_consistent := b }).is_valid
      = (validate_mesh m).is_valid) := by
  refine ⟨?_, ?_, ?_⟩
  · by_cases hd : 0 < degenerateCount m <;>
      by_cases hw : m.is_watertight = true <;>
      simp [validate_mesh, hd, hw] <;>
      omega
  · intro hd
    simp only [validate_mesh]
    rw [if_pos hd, if_pos hd]
    exact ⟨rfl, rfl⟩
  · intro b
    rfl

/-- Witness for C2 at the concrete collinear-face mesh. -/
theorem validate_mesh_validity_witness :
    (validate_mesh degenerateMesh).is_valid = false ∧
    (validate_mesh degenerateMesh).degenerate_faces
      = some (degenerateCount degenerateMesh) :=
  (validate_mesh_validity degenerateMesh).2.1 (by
    norm_num [degenerateCount, degenerateMesh, faceAreaNearZero,
      faceCrossNormSq, crossProd, vsub, vertexAt, normSq, atolQ,
      List.filter])

/-! ## Claim C10: the optional report keys -/

theorem degenerateCount_pos_iff (m : Mesh) :
    0 < degenerateCount m ↔ ∃ f ∈ m.faces, faceAreaNearZero m f = true := by
  rw [degenerateCount, List.length_pos]
  constructor
  · intro h
    rcases List.exists_mem_of_ne_nil _ h with ⟨f, hf⟩
    exact ⟨f, (List.mem_filter.mp hf).1, (List.mem_filter.mp hf).2⟩
  · rintro ⟨f, hf, hp⟩
    exact List.ne_nil_of_mem (List.mem_filter.mpr ⟨hf, hp⟩)

theorem duplicateCount_pos_iff (m : Mesh) :
    0 < duplicateCount m ↔ ¬ m.vertices.Nodup := by
  have hsub : m.vertices.dedup.Sublist m.vertices :=
    List.dedup_sublist m.vertices
  have hle : uniqueVertexCount m ≤ m.vertices.length := hsub.length_le
  rw [duplicateCount]
  constructor
  · intro h hnd
    have : m.vertices.dedup = m.vertices := List.dedup_eq_self.mpr hnd
    rw [uniqueVertexCount, this] at h
    omega
  · intro hnd
    rcases Nat.lt_or_ge (uniqueVertexCount m) m.vertices.length with hlt | hge
    · omega
    · exfalso
      have heq : m.vertices.dedup = m.vertices :=
        hsub.eq_of_length (le_antisymm (hsub.length_le) hge)
      exact hnd (List.dedup_eq_self.mp heq)

/-- C10 (confirmed): the report carries the degenerate_faces key exactly
when some face has near-zero area and the duplicate_vertices key exactly
when some vertex position repeats; when present the values are the exact
counts (near-zero-area faces, and vertices minus distinct vertex
positions); when the counts are zero the keys are absent. -/
theorem validate_mesh_optional_keys (m : Mesh) :
    ((validate_mesh m).degenerate_faces
      = if 0 < degenerateCount m then some (degenerateCount m) else none) ∧
    ((validate_mesh m).duplicate_vertices
      = if 0 < duplicateCount m then some (duplicateCount m) else none) ∧
    ((validate_mesh m).degenerate_faces.isSome = true ↔
      ∃ f ∈ m.faces, faceAreaNearZero m f = true) ∧
    ((validate_mesh m).duplicate_vertices.isSome = true ↔
      ¬ m.vertices.Nodup) := by
  refine ⟨rfl, rfl, ?_, ?_⟩
  · rw [← degenerateCount_pos_iff]
    show (if 0 < degenerateCount m then some (degenerateCount m)
      else none).isSome = true ↔ 0 < degenerateCount m
    by_cases hd : 0 < degenerateCount m
    · rw [if_pos hd]
      simpa using hd
    · rw [if_neg hd]
      simpa using hd
  · rw [← duplicateCount_pos_iff]
    show (if 0 < duplicateCount m then some (duplicateCount m)
      else none).isSome = true ↔ 0 < duplicateCount m
    by_cases hd : 0 < duplicateCount m
    · rw [if_pos hd]
      simpa using hd
    · rw [if_neg hd]
      simpa using hd

/-! ## Claim C8: which results are fresh structures -/

/-- C8 counterexample: decimating a mesh that already has no more faces
than the target returns the input mesh object itself — the same Python
object, not a new or copied structure. -/
theorem decimate_mesh_returns_input_cex :
    decimate_mesh simplifyId degenerateMesh 10 = DecimateResult.inputMesh := by
  simp [decimate_mesh, degenerateMesh]

/-- C8 (amended): decimate_mesh returns the input mesh object itself
exactly when the mesh already has at most target_faces faces, and a fresh
simplified mesh otherwise; the other mesh operations build their result
from a copy (a zero-iteration smooth returns a copy equal to its input). -/
theorem decimate_mesh_alias_iff (simplify : Mesh → ℕ → Mesh) (m : Mesh)
    (t : ℕ) :
    (decimate_mesh simplify m t = DecimateResult.inputMesh ↔
      m.faces.length ≤ t) ∧
    (∀ (md : MeshData) (lam : ℚ), smooth_mesh md 0 lam = md) := by
  constructor
  · unfold decimate_mesh
    split
    · rename_i h
      exact ⟨fun _ => h, fun _ => rfl⟩
    · rename_i h
      exact ⟨fun hc => DecimateResult.noConfusion hc, fun hc => absurd hc h⟩
  · intro md lam
    rfl

/-! ## Claim C1: extraction on an out-of-range isovalue -/

theorem forall_mem_fieldValues {n : ℕ} {f : Field3} {P : ℚ → Prop}
    (h : ∀ i j k, i < n → j < n → k < n → P (f i j k)) :
    ∀ x ∈ fieldValues n f, P x := by
  intro x hx
  simp only [fieldValues, List.mem_flatMap, List.mem_map, List.mem_range] at hx
  obtain ⟨i, hi, j, hj, k, hk, rfl⟩ := hx
  exact h i j k hi hj hk

theorem fieldValues_ne_nil {n : ℕ} {f : Field3} (hn : 0 < n) :
    fieldValues n f ≠ [] := by
  have hm : f 0 0 0 ∈ fieldValues n f := by
    simp only [fieldValues, List.mem_flatMap, List.mem_map, List.mem_range]
    exact ⟨0, hn, 0, hn, 0, hn, rfl⟩
  exact List.ne_nil_of_mem hm

/-- C1 counterexample: on the 2×2×2 all-zero field with isovalue 1/2 —
every sample strictly below the isovalue — extract_isosurface propagates
the marching-cubes range error instead of returning an empty mesh. -/
theorem extract_isosurface_all_below_cex :
    extract_isosurface (fun _ _ => ([], [])) 2 (fun _ _ _ => 0) (1 / 2) true 3
      = Except.error "Surface level must be within volume data range." := by
  have hvals : fieldValues 2 (fun _ _ _ => (0 : ℚ)) = [0, 0, 0, 0, 0, 0, 0, 0] := by
    simp [fieldValues, List.range_succ]
  unfold extract_isosurface
  rw [hvals]
  norm_num [List.min?, List.max?, List.foldl]

/-- C1 (amended): for every non-empty 3D field whose values all lie
strictly below, or all strictly above, the isovalue, extract_isosurface
raises — it returns the propagated marching-cubes ValueError that the
surface level is outside the volume data range, not an empty mesh. -/
theorem extract_isosurface_out_of_range_error (mc : Field3 → ℚ → MeshData)
    (n : ℕ) (field : Field3) (isovalue : ℚ) (smooth : Bool)
    (smooth_iterations : ℕ) (hn : 0 < n)
    (h : (∀ i j k, i < n → j < n → k < n → field i j k < isovalue) ∨
         (∀ i j k, i < n → j < n → k < n → isovalue < field i j k)) :
    extract_isosurface mc n field isovalue smooth smooth_iterations
      = Except.error "Surface level must be within volume data range." := by
  unfold extract_isosurface
  cases hmin : (fieldValues n field).min? with
  | none =>
      exact absurd (List.min?_eq_none_iff.mp hmin) (fieldValues_ne_nil hn)
  | some lo =>
      cases hmax : (fieldValues n field).max? with
      | none =>
          exact absurd (List.max?_eq_none_iff.mp hmax) (fieldValues_ne_nil hn)
      | some hiV =>
          have hcond : isovalue < lo ∨ hiV < isovalue := by
            rcases h with h | h
            · exact Or.inr (forall_mem_fieldValues
                (P := fun x => x < isovalue) h hiV
                (List.max?_mem max_choice hmax))
            · exact Or.inl (forall_mem_fieldValues
                (P := fun x => isovalue < x) h lo
                (List.min?_mem min_choice hmin))
          exact if_pos hcond

/-- Witness for C1 on the all-above side: a 1×1×1 all-ones field with
isovalue 1/2. -/
theorem extract_isosurface_out_of_range_error_witness :
    extract_isosurface (fun _ _ => ([], [])) 1 (fun _ _ _ => 1) (1 / 2)
        false 0
      = Except.error "Surface level must be within volume data range." :=
  extract_isosurface_out_of_range_error _ 1 _ (1 / 2) false 0 (by norm_num)
    (Or.inr (fun i j k _ _ _ => by norm_num))

end ProceduralDesign
